import Mathlib

/-!
Shallow embedding of the rust-vss publicly verifiable secret sharing
library, together with proofs about the embedded operations.

Modelling conventions, used throughout:
* Rust `BigUint` values are modelled as `Nat`; `BigInt` values that stay
  non-negative on every path exercised here are also modelled as `Nat`,
  while genuinely signed `BigInt` values (the extended Euclidean algorithm,
  Lagrange coefficients, DLEQ responses before reduction) are modelled as
  `Int`.
* The source's `to_biguint().unwrap()` / `to_bigint().unwrap()` conversions
  are modelled by `Int.toNat` / the `Nat → Int` coercion at the same program
  points.
* Rust's `%` and `/` on `BigInt` truncate towards zero, hence are `Int.tmod`
  and `Int.tdiv`; `num_integer::mod_floor` with a positive modulus is
  `Int.emod` (non-negative result).
* `BTreeMap` is modelled as an association list kept sorted by key with
  overwrite-on-insert (`btreeInsertN` / `btreeInsertI`), which reproduces
  both the lookup behaviour and the sorted iteration order of the source.
* Recursions are fuel-driven (with provably sufficient fuel) so that the
  kernel can evaluate every definition on concrete inputs.
-/

/-- Binary modular exponentiation, fuel-driven.  `mpowAux (e+1) b e m`
denotes `BigInt::modpow(&b, &e, &m)` for non-negative arguments. -/
def mpowAux : Nat → Nat → Nat → Nat → Nat
  | 0, _, _, m => 1 % m
  | f + 1, b, e, m =>
    if e = 0 then 1 % m
    else
      let h := mpowAux f (b * b % m) (e / 2) m
      if e % 2 = 1 then b * h % m else h

/-- `BigInt::modpow` on non-negative base, exponent and positive modulus. -/
def modpow (b e m : Nat) : Nat := mpowAux (e + 1) b e m

theorem mpowAux_eq : ∀ (f e b m : Nat), e < 2 ^ f → mpowAux f b e m = b ^ e % m := by
  intro f
  induction f with
  | zero =>
    intro e b m he
    interval_cases e
    simp [mpowAux]
  | succ f ih =>
    intro e b m he
    by_cases h0 : e = 0
    · simp [mpowAux, h0]
    · have hpow : (2:Nat) ^ (f + 1) = 2 * 2 ^ f := by rw [pow_succ]; ring
      have hdiv : e / 2 < 2 ^ f := by omega
      have hrec := ih (e / 2) (b * b % m) m hdiv
      have hsq : (b * b % m) ^ (e / 2) % m = b ^ (2 * (e / 2)) % m := by
        rw [← Nat.pow_mod, ← pow_two, ← pow_mul]
      by_cases hodd : e % 2 = 1
      · have he2 : 2 * (e / 2) + 1 = e := by omega
        simp only [mpowAux, if_neg h0, hodd, if_pos rfl]
        rw [hrec, hsq]
        calc b * (b ^ (2 * (e / 2)) % m) % m
            = (b % m) * (b ^ (2 * (e / 2)) % m % m) % m := by rw [Nat.mul_mod]
          _ = (b % m) * (b ^ (2 * (e / 2)) % m) % m := by
              rw [Nat.mod_mod_of_dvd _ (dvd_refl m)]
          _ = b * b ^ (2 * (e / 2)) % m := by rw [← Nat.mul_mod]
          _ = b ^ e % m := by rw [← pow_succ', he2]
      · have he2 : 2 * (e / 2) = e := by omega
        simp only [mpowAux, if_neg h0, if_neg hodd]
        rw [hrec, hsq, he2]

theorem modpow_eq (b e m : Nat) : modpow b e m = b ^ e % m := by
  refine mpowAux_eq (e + 1) e b m ?_
  exact Nat.lt_of_lt_of_le (Nat.lt_two_pow e) (Nat.pow_le_pow_right (by omega) (by omega))

/-- Fuel-driven most-significant-first decimal digit extraction. -/
def decDigitsAux : Nat → Nat → List Nat → List Nat
  | 0, _, acc => acc
  | f + 1, n, acc => if n < 10 then n :: acc else decDigitsAux f (n / 10) (n % 10 :: acc)

/-- ASCII bytes of `to_str_radix(10)` of a non-negative big integer. -/
def decBytes (n : Nat) : List Nat := (decDigitsAux (n + 1) n []).map (fun d => d + 48)

/-- Right rotation of a 32-bit word. -/
def rotr (x k : Nat) : Nat := ((x >>> k) ||| (x <<< (32 - k))) % 4294967296

def shaCh (x y z : Nat) : Nat := (x &&& y) ^^^ ((x ^^^ 4294967295) &&& z)

def shaMaj (x y z : Nat) : Nat := (x &&& y) ^^^ (x &&& z) ^^^ (y &&& z)

def bsig0 (x : Nat) : Nat := rotr x 2 ^^^ rotr x 13 ^^^ rotr x 22

def bsig1 (x : Nat) : Nat := rotr x 6 ^^^ rotr x 11 ^^^ rotr x 25

def ssig0 (x : Nat) : Nat := rotr x 7 ^^^ rotr x 18 ^^^ (x >>> 3)

def ssig1 (x : Nat) : Nat := rotr x 17 ^^^ rotr x 19 ^^^ (x >>> 10)

/-- The SHA-256 round constants. -/
def shaK : List Nat :=
  [1116352408, 1899447441, 3049323471, 3921009573, 961987163,
   1508970993, 2453635748, 2870763221, 3624381080, 310598401,
   607225278, 1426881987, 1925078388, 2162078206, 2614888103,
   3248222580, 3835390401, 4022224774, 264347078, 604807628,
   770255983, 1249150122, 1555081692, 1996064986, 2554220882,
   2821834349, 2952996808, 3210313671, 3336571891, 3584528711,
   113926993, 338241895, 666307205, 773529912, 1294757372,
   1396182291, 1695183700, 1986661051, 2177026350, 2456956037,
   2730485921, 2820302411, 3259730800, 3345764771, 3516065817,
   3600352804, 4094571909, 275423344, 430227734, 506948616,
   659060556, 883997877, 958139571, 1322822218, 1537002063,
   1747873779, 1955562222, 2024104815, 2227730452, 2361852424,
   2428436474, 2756734187, 3204031479, 3329325298]

/-- The running SHA-256 state: eight 32-bit words. -/
def Sha8 : Type := Nat × Nat × Nat × Nat × Nat × Nat × Nat × Nat

def shaRound (st : Sha8) (kw : Nat) : Sha8 :=
  match st with
  | (a, b, c, d, e, f, g, h) =>
    let t1 := (h + bsig1 e + shaCh e f g + kw) % 4294967296
    let t2 := (bsig0 a + shaMaj a b c) % 4294967296
    ((t1 + t2) % 4294967296, a, b, c, (d + t1) % 4294967296, e, f, g)

/-- The sixteen 32-bit big-endian words of one 64-byte block. -/
def words16 (block : List Nat) : List Nat :=
  (List.range 16).map fun i =>
    block.getD (4 * i) 0 * 16777216 + block.getD (4 * i + 1) 0 * 65536 +
      block.getD (4 * i + 2) 0 * 256 + block.getD (4 * i + 3) 0

def extendW (ws : List Nat) : List Nat :=
  let n := ws.length
  ws ++ [(ssig1 (ws.getD (n - 2) 0) + ws.getD (n - 7) 0 +
          ssig0 (ws.getD (n - 15) 0) + ws.getD (n - 16) 0) % 4294967296]

/-- The 64-word message schedule of one block. -/
def schedule (block : List Nat) : List Nat :=
  (List.range 48).foldl (fun ws _ => extendW ws) (words16 block)

def compressBlock (st : Sha8) (block : List Nat) : Sha8 :=
  match st with
  | (h0, h1, h2, h3, h4, h5, h6, h7) =>
    let kws := (shaK.zip (schedule block)).map fun p => (p.1 + p.2) % 4294967296
    match kws.foldl shaRound (h0, h1, h2, h3, h4, h5, h6, h7) with
    | (a, b, c, d, e, f, g, h) =>
      ((h0 + a) % 4294967296, (h1 + b) % 4294967296, (h2 + c) % 4294967296,
       (h3 + d) % 4294967296, (h4 + e) % 4294967296, (h5 + f) % 4294967296,
       (h6 + g) % 4294967296, (h7 + h) % 4294967296)

/-- Big-endian 64-bit length field of the SHA-256 padding. -/
def lenBytes (n : Nat) : List Nat :=
  (List.range 8).map fun i => (n >>> (8 * (7 - i))) &&& 255

def padMsg (msg : List Nat) : List Nat :=
  msg ++ [128] ++ List.replicate ((120 - (msg.length + 1) % 64) % 64) 0 ++
    lenBytes (8 * msg.length)

def chunksAux : Nat → List Nat → List (List Nat)
  | 0, _ => []
  | _ + 1, [] => []
  | f + 1, b :: l => (b :: l).take 64 :: chunksAux f ((b :: l).drop 64)

/-- SHA-256 of a byte string, returned as the big-endian 256-bit integer
`BigUint::from_bytes_be(digest)`. -/
def sha256 (msg : List Nat) : Nat :=
  match (chunksAux (padMsg msg).length (padMsg msg)).foldl compressBlock
      (1779033703, 3144134277, 1013904242,
       2773480762, 1359893119, 2600822924,
       528734635, 1541459225) with
  | (a, b, c, d, e, f, g, h) =>
    ((((((a * 4294967296 + b) * 4294967296 + c) * 4294967296 + d) * 4294967296 + e) *
      4294967296 + f) * 4294967296 + g) * 4294967296 + h

/-- `Util::extend_gcd`, fuel-driven.  The source recurses on
`extend_gcd(b % a, a)`; `b % a` is Rust's truncating remainder. -/
def Util.egcdAux : Nat → Int → Int → Int × Int × Int
  | 0, _, b => (b, 0, 1)
  | f + 1, a, b =>
    if a = 0 then (b, 0, 1)
    else
      let r := Util.egcdAux f (b.tmod a) a
      (r.1, r.2.2 - b.tdiv a * r.2.1, r.2.1)

/-- `Util::extend_gcd(a, b) = (g, x, y)` with `a*x + b*y = g`. -/
def Util.extend_gcd (a b : Int) : Int × Int × Int := Util.egcdAux (a.natAbs + 1) a b

/-- `Util::mod_inverse`: `((x % modular) + modular) % modular` when the
extended gcd is 1, otherwise `None`.  Both `%` are truncating. -/
def Util.mod_inverse (a modular : Int) : Option Int :=
  let r := Util.extend_gcd a modular
  if r.1 ≠ 1 then none else some ((r.2.1.tmod modular + modular).tmod modular)

/-- `Util::abs`: the magnitude of a signed big integer. -/
def Util.abs (n : Int) : Int := if n < 0 then -n else n

/-- `Util::lagrange_coefficient(i, values)`: `(0, 1)` if `i` is not in
`values`; otherwise the pair of products of `j` and `j - i` over
`j ∈ 1..=max(values)` restricted to members of `values` distinct from `i`. -/
def Util.lagrange_coefficient (i : Int) (values : List Int) : Int × Int :=
  if i ∈ values then
    let m := (values.max?).getD i
    ((List.range m.toNat).foldl
      (fun p (k : Nat) =>
        let j : Int := (k : Int) + 1
        if j ≠ i ∧ j ∈ values then (p.1 * j, p.2 * (j - i)) else p)
      (1, 1))
  else (0, 1)

/-- `ShareBox`: one recipient's published decrypted share with its NIZK. -/
structure ShareBox where
  publickey : Nat
  share : Nat
  challenge : Nat
  response : Nat
  deriving DecidableEq, Repr

/-- `DistributionShareBox`: the dealer's public output.  The three
`BTreeMap`s are sorted association lists; `positions` holds `i64` values. -/
structure DistributionShareBox where
  commitments : List Nat
  positions : List (Nat × Int)
  shares : List (Nat × Nat)
  publickeys : List Nat
  challenge : Nat
  responses : List (Nat × Nat)
  u : Nat
  deriving DecidableEq, Repr

/-- `BTreeMap<BigUint, _>::insert`: sorted insert with overwrite. -/
def btreeInsertN {β : Type} (k : Nat) (v : β) : List (Nat × β) → List (Nat × β)
  | [] => [(k, v)]
  | p :: rest =>
    if k < p.1 then (k, v) :: p :: rest
    else if k = p.1 then (k, v) :: rest
    else p :: btreeInsertN k v rest

/-- `BTreeMap<i64, _>::insert`: sorted insert with overwrite. -/
def btreeInsertI {β : Type} (k : Int) (v : β) : List (Int × β) → List (Int × β)
  | [] => [(k, v)]
  | p :: rest =>
    if k < p.1 then (k, v) :: p :: rest
    else if k = p.1 then (k, v) :: rest
    else p :: btreeInsertI k v rest

/-- `Polynomial::get_value`: plain integer evaluation `Σ aᵢ·xⁱ`,
no modular reduction. -/
def Polynomial.get_value (coefficients : List Nat) (x : Nat) : Nat :=
  (coefficients.enum.map fun p => p.2 * x ^ p.1).sum

/-- The sampled share `p(position) % (q - 1)` of `Participant::distribute`. -/
def sVal (coefficients : List Nat) (q position : Nat) : Nat :=
  Polynomial.get_value coefficients position % (q - 1)

/-- The DLEQ response `(w - α·c).mod_floor(q1)` of `Prover::response`,
converted back to a non-negative integer. -/
def respN (w alpha c q1 : Nat) : Nat :=
  (((w : Int) - (alpha : Int) * (c : Int)).emod (q1 : Int)).toNat

/-- The committed-polynomial evaluation loop shared by
`Participant::distribute` and `VSS::verify_distribution_shares`: the running
product of `commitments[j] ^ exponent` with the running exponent multiplied
by the position and reduced `% (q-1)` (truncating `%`) at each step. -/
def xLoop (commitments : List Nat) (position : Int) (q : Nat) : Nat :=
  (commitments.foldl
    (fun p c => (p.1 * modpow c p.2.toNat q % q, (p.2 * position).tmod ((q : Int) - 1)))
    (1, 1)).1

/-- The per-recipient transcript absorption of `Participant::distribute`:
decimal ASCII of `X_i`, `Y_i`, `a1 = g^w`, `a2 = pk^w`. -/
def quadD (q g : Nat) (commitments coefficients : List Nat) (w pk position : Nat) : List Nat :=
  let s := sVal coefficients q position
  let x := xLoop commitments (position : Int) q
  let y := modpow pk s q
  decBytes x ++ decBytes y ++ decBytes (modpow g w q) ++ decBytes (modpow pk w q)

/-- The commitments `g^{a_j} mod q` for `j ∈ 0..threshold`. -/
def Participant.commitList (q g : Nat) (coefficients : List Nat) (threshold : Nat) : List Nat :=
  (List.range threshold).map fun j => modpow g (coefficients.getD j 0) q

/-- The full challenge transcript of `Participant::distribute`. -/
def Participant.distBytes (q g : Nat) (commitments coefficients : List Nat) (w : Nat)
    (publickeys : List Nat) : List Nat :=
  (publickeys.enum.map fun p => quadD q g commitments coefficients w p.2 (p.1 + 1)).flatten

/-- The position map `pk ↦ i` of `Participant::distribute` (`BTreeMap`
inserts of positions 1.. in input order). -/
def Participant.positionsMap (publickeys : List Nat) : List (Nat × Int) :=
  publickeys.enum.foldl (fun m p => btreeInsertN p.2 ((p.1 : Int) + 1) m) []

/-- The sampling-point map `pk ↦ p(i) mod (q-1)` of `Participant::distribute`. -/
def Participant.samplingMap (q : Nat) (coefficients publickeys : List Nat) :
    List (Nat × Nat) :=
  publickeys.enum.foldl (fun m p => btreeInsertN p.2 (sVal coefficients q (p.1 + 1)) m) []

/-- The encrypted-share map `pk ↦ pk^{s_i} mod q` of `Participant::distribute`. -/
def Participant.sharesMap (q : Nat) (coefficients publickeys : List Nat) :
    List (Nat × Nat) :=
  publickeys.enum.foldl
    (fun m p => btreeInsertN p.2 (modpow p.2 (sVal coefficients q (p.1 + 1)) q) m) []

/-- The response map of `Participant::distribute`: the second loop looks the
sampling point up by public key and computes `w - s·c mod (q-1)`. -/
def Participant.responsesMap (q w c : Nat) (coefficients publickeys : List Nat) :
    List (Nat × Nat) :=
  publickeys.foldl
    (fun m pk => btreeInsertN pk
      (respN w ((List.lookup pk (Participant.samplingMap q coefficients publickeys)).getD 0)
        c (q - 1)) m) []

/-- `Participant::distribute` with an explicit polynomial and witness
(the deterministic core behind `distribute_secret`).  Positions are
assigned 1.. in input order; the challenge is the SHA-256 transcript digest
reduced `mod (q-1)`; `u` is the secret XOR-masked with
`SHA-256(decimal(G^{a₀ mod (q-1)} mod q)) mod q`. -/
def Participant.distribute (q g G secret : Nat) (publickeys : List Nat) (threshold : Nat)
    (coefficients : List Nat) (w : Nat) : DistributionShareBox :=
  let cs := Participant.commitList q g coefficients threshold
  let c := sha256 (Participant.distBytes q g cs coefficients w publickeys) % (q - 1)
  let gamma := modpow G (sVal coefficients q 0) q
  ⟨cs, Participant.positionsMap publickeys,
   Participant.sharesMap q coefficients publickeys, publickeys, c,
   Participant.responsesMap q w c coefficients publickeys,
   secret ^^^ sha256 (decBytes gamma) % q⟩

/-- Outcome of `Participant::extract_share`: either a `ShareBox` or a panic
(the source `unwrap()`s both the share lookup and the key inverse). -/
inductive ExtractResult where
  | ok (sb : ShareBox)
  | panicked
  deriving DecidableEq, Repr

/-- `Participant::extract_share` with an explicit witness (the deterministic
core behind `extract_secret_share`). -/
def Participant.extract_share (q G : Nat) (D : DistributionShareBox)
    (private_key w : Nat) : ExtractResult :=
  let public_key := modpow G private_key q
  match List.lookup public_key D.shares with
  | none => ExtractResult.panicked
  | some y =>
    match Util.mod_inverse (private_key : Int) ((q : Int) - 1) with
    | none => ExtractResult.panicked
    | some d =>
      let s := modpow y d.toNat q
      let c := sha256 (decBytes public_key ++ decBytes y ++
        decBytes (modpow G w q) ++ decBytes (modpow s w q)) % (q - 1)
      ExtractResult.ok ⟨public_key, s, c, respN w private_key c (q - 1)⟩

/-- `VSS::verify`: one Chaum-Pedersen check over `(G, pk, share, Y)` with the
box's challenge and response against a fresh single-statement transcript. -/
def VSS.verify (q G : Nat) (sharebox : ShareBox) (encrypted_share : Nat) : Bool :=
  let a1 := modpow G sharebox.response q * modpow sharebox.publickey sharebox.challenge q % q
  let a2 := modpow sharebox.share sharebox.response q *
    modpow encrypted_share sharebox.challenge q % q
  sha256 (decBytes sharebox.publickey ++ decBytes encrypted_share ++
    decBytes a1 ++ decBytes a2) % (q - 1) == sharebox.challenge

/-- `VSS::verify_share`: `false` when the public key has no encrypted share
in the distribution box, otherwise `VSS::verify`. -/
def VSS.verify_share (q G : Nat) (sharebox : ShareBox) (D : DistributionShareBox)
    (publickey : Nat) : Bool :=
  match List.lookup publickey D.shares with
  | none => false
  | some y => VSS.verify q G sharebox y

/-- The per-recipient replay loop of `VSS::verify_distribution_shares`,
accumulating the verifier transcript; `none` marks the early `return false`
on a missing position, response or share. -/
def VSS.verifyDistAux (q g : Nat) (D : DistributionShareBox) :
    List Nat → List Nat → Option (List Nat)
  | [], acc => some acc
  | pk :: rest, acc =>
    match List.lookup pk D.positions, List.lookup pk D.responses,
        List.lookup pk D.shares with
    | some pos, some r, some y =>
      let x := xLoop D.commitments pos q
      let a1 := modpow g r q * modpow x D.challenge q % q
      let a2 := modpow pk r q * modpow y D.challenge q % q
      VSS.verifyDistAux q g D rest
        (acc ++ decBytes x ++ decBytes y ++ decBytes a1 ++ decBytes a2)
    | _, _, _ => none

/-- `VSS::verify_distribution_shares`. -/
def VSS.verify_distribution_shares (q g : Nat) (D : DistributionShareBox) : Bool :=
  match VSS.verifyDistAux q g D D.publickeys [] with
  | some bytes => sha256 bytes % (q - 1) == D.challenge
  | none => false

/-- `VSS::compute_factor`.  The exponent starts at 1 and is only replaced in
the two branches that succeed; when the reduced denominator has no inverse
`mod (q-1)` the source merely prints an error, leaving the exponent at 1. -/
def VSS.compute_factor (q : Nat) (position : Int) (share : Nat) (values : List Int) : Nat :=
  let lc := Util.lagrange_coefficient position values
  let exponent : Int :=
    if lc.1.tmod lc.2 = 0 then lc.1.tdiv (Util.abs lc.2)
    else
      let numerator := lc.1.toNat
      let denominator := (Util.abs lc.2).toNat
      let g0 := Nat.gcd numerator denominator
      match Util.mod_inverse ((denominator / g0 : Nat) : Int) ((q : Int) - 1) with
      | some inv => (((numerator / g0 : Nat) : Int) * inv).tmod ((q : Int) - 1)
      | none => 1
  let factor := modpow share exponent.toNat q
  if lc.1 * lc.2 < 0 then
    match Util.mod_inverse ((factor : Nat) : Int) ((q : Int)) with
    | some inv => inv.toNat
    | none => factor
  else factor

/-- The position/share map construction of `VSS::reconstruct`: for each
share box, look its public key up in `D.positions` (`None` on a miss) and
insert the share into a `BTreeMap` keyed by position. -/
def VSS.buildShares : List ShareBox → List (Nat × Int) → List (Int × Nat) →
    Option (List (Int × Nat))
  | [], _, acc => some acc
  | sb :: rest, positions, acc =>
    match List.lookup sb.publickey positions with
    | none => none
    | some pos => VSS.buildShares rest positions (btreeInsertI pos sb.share acc)

/-- `VSS::reconstruct`. -/
def VSS.reconstruct (q : Nat) (share_boxes : List ShareBox)
    (D : DistributionShareBox) : Option Nat :=
  if share_boxes.length < D.commitments.length then none
  else
    match VSS.buildShares share_boxes D.positions [] with
    | none => none
    | some shares =>
      let values := shares.map Prod.fst
      let factors := shares.map fun p => VSS.compute_factor q p.1 p.2 values
      let secret := factors.foldl (fun acc f => acc * f % q) 1
      some (sha256 (decBytes secret) % q ^^^ D.u)

/-- `string_to_secret`: UTF-8 strings are modelled by their byte sequences;
`BigUint::from_bytes_be` folds the bytes big-endian. -/
def string_to_secret (bytes : List Nat) : Nat :=
  bytes.foldl (fun acc b => acc * 256 + b) 0

/-- `string_from_secret`: `BigUint::to_bytes_be` is the minimal big-endian
byte representation, with `[0]` for zero; the result is decoded back to a
string by `String::from_utf8`, modelled as the byte sequence itself. -/
def string_from_secret (secret : Nat) : List Nat :=
  if secret = 0 then [0] else (Nat.digits 256 secret).reverse


theorem lagrange_fold (i : Int) (values : List Int) :
    ∀ (n : Nat) (a b : Int),
      (List.range n).foldl
          (fun p (k : Nat) =>
            let j : Int := (k : Int) + 1
            if j ≠ i ∧ j ∈ values then (p.1 * j, p.2 * (j - i)) else p) (a, b) =
        (a * (((List.range n).map fun (k : Nat) => (k : Int) + 1).filter
            (fun j => decide (j ≠ i ∧ j ∈ values))).prod,
         b * ((((List.range n).map fun (k : Nat) => (k : Int) + 1).filter
            (fun j => decide (j ≠ i ∧ j ∈ values))).map fun j => j - i).prod) := by
  intro n
  induction n with
  | zero => intro a b; simp
  | succ n ih =>
    intro a b
    rw [List.range_succ, List.foldl_append, ih]
    simp only [List.foldl_cons, List.foldl_nil, List.map_append, List.map_cons,
      List.map_nil, List.filter_append, List.prod_append]
    by_cases h : ((n : Int) + 1) ≠ i ∧ ((n : Int) + 1) ∈ values
    · rw [if_pos h]
      simp only [List.filter_cons, List.filter_nil, decide_eq_true_eq, if_pos h,
        List.map_cons, List.map_nil, List.prod_cons, List.prod_nil]
      simp only [Prod.mk.injEq]
      constructor <;> ring
    · rw [if_neg h]
      simp only [List.filter_cons, List.filter_nil, decide_eq_true_eq, if_neg h,
        List.map_nil, List.prod_nil]
      simp only [Prod.mk.injEq]
      constructor <;> ring

/-- C7: `lagrange_coefficient(i, S)` returns `(0, 1)` when `i ∉ S`, and
otherwise the unreduced signed pair of products of `j` and `j - i` over
`j ∈ {1, …, max(S)} ∩ (S \ {i})` — not over all of `S`; with the five
pinned literal values. -/
theorem C7_lagrange_coefficient_spec :
    (∀ (i : Int) (values : List Int), i ∉ values →
      Util.lagrange_coefficient i values = (0, 1)) ∧
    (∀ (i : Int) (values : List Int), i ∈ values →
      Util.lagrange_coefficient i values =
        ((((List.range ((values.max?.getD i).toNat)).map fun (k : Nat) => (k : Int) + 1).filter
            (fun j => decide (j ≠ i ∧ j ∈ values))).prod,
         ((((List.range ((values.max?.getD i).toNat)).map fun (k : Nat) => (k : Int) + 1).filter
            (fun j => decide (j ≠ i ∧ j ∈ values))).map fun j => j - i).prod)) ∧
    Util.lagrange_coefficient 1 [0, 1, 2, 3, 4, 5, 6] = (720, 120) ∧
    Util.lagrange_coefficient 2 [0, 1, 2, 3, 4, 5, 6] = (360, -24) ∧
    Util.lagrange_coefficient 3 [0, 1, 2, 3, 4, 5, 6] = (240, 12) ∧
    Util.lagrange_coefficient 3 [1, 3, 4] = (4, -2) ∧
    Util.lagrange_coefficient 9 [0, 1, 2, 3, 4, 5, 6] = (0, 1) := by
  refine ⟨?_, ?_, by decide, by decide, by decide, by decide, by decide⟩
  · intro i values h
    simp [Util.lagrange_coefficient, h]
  · intro i values h
    simp only [Util.lagrange_coefficient, if_pos h, lagrange_fold, one_mul]

/-- Witness for C7: the product form instantiated at `i = 3`, `S = {1,3,4}`. -/
theorem C7_lagrange_coefficient_spec_witness :
    ((3 : Int) ∈ ([1, 3, 4] : List Int)) ∧
    Util.lagrange_coefficient 3 [1, 3, 4] =
      ((((List.range ((([1, 3, 4] : List Int).max?.getD 3).toNat)).map
            fun (k : Nat) => (k : Int) + 1).filter
          (fun j => decide (j ≠ 3 ∧ j ∈ ([1, 3, 4] : List Int)))).prod,
       ((((List.range ((([1, 3, 4] : List Int).max?.getD 3).toNat)).map
            fun (k : Nat) => (k : Int) + 1).filter
          (fun j => decide (j ≠ 3 ∧ j ∈ ([1, 3, 4] : List Int)))).map fun j => j - 3).prod) :=
  ⟨by decide, C7_lagrange_coefficient_spec.2.1 3 [1, 3, 4] (by decide)⟩

theorem foldl_base256 (l : List Nat) :
    ∀ acc : Nat, l.foldl (fun a b => a * 256 + b) acc =
      acc * 256 ^ l.length + Nat.ofDigits 256 l.reverse := by
  induction l with
  | nil => intro acc; simp
  | cons x xs ih =>
    intro acc
    simp only [List.foldl_cons, List.reverse_cons, List.length_cons, ih,
      Nat.ofDigits_append, Nat.ofDigits_singleton, List.length_reverse]
    ring

/-- C9 (amended): the round-trip `string_from_secret (string_to_secret s) = s`
holds for every UTF-8 string whose byte encoding is non-empty and starts
with a non-zero byte (the big-endian integer encoding drops leading zero
bytes, and the empty string decodes to a single zero byte). -/
theorem C9_string_roundtrip (bytes : List Nat) (b : Nat)
    (hb : bytes.head? = some b) (hb0 : b ≠ 0) (hlt : ∀ x ∈ bytes, x < 256) :
    string_from_secret (string_to_secret bytes) = bytes := by
  have hne : bytes ≠ [] := by
    intro h
    rw [h] at hb
    exact Option.noConfusion hb
  have hrevne : bytes.reverse ≠ [] := by simpa using hne
  have hlast : ∀ h : bytes.reverse ≠ [], (bytes.reverse).getLast h ≠ 0 := by
    intro h
    have h1 : (bytes.reverse).getLast? = some ((bytes.reverse).getLast h) :=
      List.getLast?_eq_getLast _ h
    rw [List.getLast?_reverse, hb] at h1
    intro h0
    rw [h0] at h1
    exact hb0 (Option.some.inj h1)
  have hrev : ∀ x ∈ bytes.reverse, x < 256 := by
    intro x hx
    exact hlt x (List.mem_reverse.mp hx)
  have hdig : Nat.digits 256 (Nat.ofDigits 256 bytes.reverse) = bytes.reverse :=
    Nat.digits_ofDigits 256 (by norm_num) _ hrev hlast
  have hval : string_to_secret bytes = Nat.ofDigits 256 bytes.reverse := by
    unfold string_to_secret
    rw [foldl_base256]
    simp
  have hnz : string_to_secret bytes ≠ 0 := by
    intro h0
    rw [hval] at h0
    rw [h0] at hdig
    simp [Nat.digits_zero] at hdig
    exact hne hdig
  unfold string_from_secret
  rw [if_neg hnz, hval, hdig, List.reverse_reverse]

/-- Counterexample for C9 as stated: the empty string (empty byte sequence)
encodes to the integer 0, which decodes to the one-byte string `"\x00"`,
not to the empty string. -/
theorem C9_string_roundtrip_counterexample :
    string_from_secret (string_to_secret []) = [0] ∧ ([0] : List Nat) ≠ [] := by
  constructor
  · rfl
  · decide

/-- Witness for C9: the byte encoding of `"Test"` satisfies the hypotheses
and round-trips. -/
theorem C9_string_roundtrip_witness :
    (([84, 101, 115, 116] : List Nat).head? = some 84 ∧ (84 : Nat) ≠ 0 ∧
      ∀ x ∈ ([84, 101, 115, 116] : List Nat), x < 256) ∧
    string_from_secret (string_to_secret [84, 101, 115, 116]) = [84, 101, 115, 116] :=
  ⟨⟨by decide, by decide, by decide⟩,
   C9_string_roundtrip [84, 101, 115, 116] 84 (by decide) (by decide) (by decide)⟩

/-- C4: `extract_secret_share` hits `shares.get(&public_key).unwrap()` when
the derived public key has no entry in `D.shares`, so it panics instead of
returning an absent result.  Concrete failing input: `q = 7`, `G = 3`,
`sk = 1` (so `pk = 3`), and a distribution box with an empty share map. -/
theorem C4_extract_share_panics_on_missing_key :
    Participant.extract_share 7 3 ⟨[], [], [], [], 0, [], 0⟩ 1 1 =
      ExtractResult.panicked := by
  decide

set_option maxRecDepth 100000

/-- The S1 recipient public keys: `G^sk mod q` for the private keys
`[7901, 4801, 1453]` in the test group `q = 179426549`, `G = 15486487`. -/
def s1Publickeys : List Nat :=
  [modpow 15486487 7901 179426549, modpow 15486487 4801 179426549,
   modpow 15486487 1453 179426549]

/-- The S1 distribution: secret 1234567890, threshold 3, polynomial
coefficients `[164102006, 43489589, 98100795]`, dealer witness 6345, in the
test group `q = 179426549`, `g = 1301081`, `G = 15486487`. -/
def s1Distribution : DistributionShareBox :=
  Participant.distribute 179426549 1301081 15486487 1234567890 s1Publickeys 3
    [164102006, 43489589, 98100795] 6345

/-- C6: the S1 distribution produces exactly the pinned commitments,
challenge, and per-recipient (input-order) shares and responses. -/
theorem C6_distribution_fixed_vector :
    s1Distribution.commitments = [92318234, 76602245, 63484157] ∧
    s1Distribution.challenge = 41963410 ∧
    (s1Publickeys.map fun pk => List.lookup pk s1Distribution.positions) =
      [some 1, some 2, some 3] ∧
    (s1Publickeys.map fun pk => List.lookup pk s1Distribution.shares) =
      [some 42478042, some 80117658, some 86941725] ∧
    (s1Publickeys.map fun pk => List.lookup pk s1Distribution.responses) =
      [some 151565889, some 146145105, some 71350321] := by
  decide

/-- Public keys of five recipients (private keys 7901, 4801, 1453, 3, 5)
in the test group. -/
def c1Publickeys : List Nat :=
  [modpow 15486487 7901 179426549, modpow 15486487 4801 179426549,
   modpow 15486487 1453 179426549, modpow 15486487 3 179426549,
   modpow 15486487 5 179426549]

/-- An honest distribution of secret 1234567890 with threshold 2 over the
five recipients, with polynomial coefficients `[164102006, 43489589]` and
dealer witness 6345. -/
def c1Distribution : DistributionShareBox :=
  Participant.distribute 179426549 1301081 15486487 1234567890 c1Publickeys 2
    [164102006, 43489589] 6345

/-- The honest decrypted share `G^{p(pos) mod (q-1)} mod q` at a position. -/
def c1Share (pos : Nat) : Nat :=
  modpow 15486487 (sVal [164102006, 43489589] 179426549 pos) 179426549

/-- C1: reconstruction from the honest decrypted shares of the two distinct
positions {1, 5} (k = t = 2) returns a value different from the original
secret: the reduced Lagrange denominators 4 and 4 share the factor 2 with
`q - 1`, `mod_inverse` fails, and `compute_factor` silently keeps exponent 1. -/
theorem C1_reconstruct_wrong_secret_on_gap_positions :
    (VSS.reconstruct 179426549
        [⟨c1Publickeys.getD 0 0, c1Share 1, 0, 0⟩, ⟨c1Publickeys.getD 4 0, c1Share 5, 0, 0⟩]
        c1Distribution).isSome = true ∧
    VSS.reconstruct 179426549
        [⟨c1Publickeys.getD 0 0, c1Share 1, 0, 0⟩, ⟨c1Publickeys.getD 4 0, c1Share 5, 0, 0⟩]
        c1Distribution ≠ some 1234567890 := by
  decide

/-- Counterexample for C5 as stated: at `q = 7` with positions {1, 2, 4},
the shares at positions 1 and 4 have non-exact Lagrange fractions whose
reduced denominators (3 and 3) have no inverse mod `q - 1 = 6`, yet their
factors `2^1 mod 7` and `5^1 mod 7` are NOT excluded: the reconstructed
product is `2·4·5 mod 7 = 5`, not the exclusion value 4, and the two hash
outcomes differ. -/
theorem C5_factor_not_skipped_counterexample :
    Util.lagrange_coefficient 4 [1, 2, 4] = (2, 6) ∧
    Util.mod_inverse 3 6 = none ∧
    VSS.compute_factor 7 4 5 [1, 2, 4] = 5 ∧
    VSS.compute_factor 7 1 2 [1, 2, 4] = 2 ∧
    VSS.reconstruct 7 [⟨10, 2, 0, 0⟩, ⟨20, 3, 0, 0⟩, ⟨40, 5, 0, 0⟩]
        ⟨[1, 1, 1], [(10, 1), (20, 2), (40, 4)], [], [], 0, [], 0⟩ =
      some (sha256 (decBytes 5) % 7 ^^^ 0) ∧
    (sha256 (decBytes 5) % 7 ^^^ 0) ≠ sha256 (decBytes 4) % 7 ^^^ 0 := by
  decide


theorem int_tmod_coe (m n : Nat) : (m : Int).tmod (n : Int) = ((m % n : Nat) : Int) := rfl

theorem int_tdiv_coe (m n : Nat) : (m : Int).tdiv (n : Int) = ((m / n : Nat) : Int) := rfl

theorem egcdAux_spec : ∀ (m : Nat), ∀ (f n : Nat), m < f →
    (Util.egcdAux f (m : Int) (n : Int)).1 = (Nat.gcd m n : Int) ∧
    (Util.egcdAux f (m : Int) (n : Int)).2.1 * (m : Int) +
      (Util.egcdAux f (m : Int) (n : Int)).2.2 * (n : Int) = (Nat.gcd m n : Int) := by
  intro m
  induction m using Nat.strong_induction_on with
  | _ m ih =>
    intro f n hf
    match f with
    | 0 => omega
    | f + 1 =>
      by_cases hm : m = 0
      · subst hm
        simp [Util.egcdAux]
      · have hm0 : ((m : Nat) : Int) ≠ 0 := by
          simpa using hm
        have hrec := ih (n % m) (by exact Nat.mod_lt n (by omega)) f m (by
          have : n % m < m := Nat.mod_lt n (by omega)
          omega)
        simp only [Util.egcdAux, if_neg hm0, int_tmod_coe, int_tdiv_coe]
        obtain ⟨h1, h2⟩ := hrec
        refine ⟨?_, ?_⟩
        · rw [h1, Nat.gcd_rec m n]
        · rw [Nat.gcd_rec m n]
          have hd := Nat.div_add_mod n m
          have hdm2 : (n : Int) = ((n % m : Nat) : Int) + (m : Int) * ((n / m : Nat) : Int) := by
            exact_mod_cast (by omega : n = n % m + m * (n / m))
          linear_combination h2 + (Util.egcdAux f ((n % m : Nat) : Int) (m : Int)).2.1 * hdm2

theorem extend_gcd_spec (m n : Nat) :
    (Util.extend_gcd (m : Int) (n : Int)).1 = (Nat.gcd m n : Int) ∧
    (Util.extend_gcd (m : Int) (n : Int)).2.1 * (m : Int) +
      (Util.extend_gcd (m : Int) (n : Int)).2.2 * (n : Int) = (Nat.gcd m n : Int) := by
  unfold Util.extend_gcd
  have : ((m : Int).natAbs) = m := Int.natAbs_ofNat m
  rw [this]
  exact egcdAux_spec m (m + 1) n (by omega)

theorem mod_inverse_none {a m : Nat} (h : Nat.gcd a m ≠ 1) :
    Util.mod_inverse (a : Int) (m : Int) = none := by
  unfold Util.mod_inverse
  have h1 := (extend_gcd_spec a m).1
  rw [if_pos]
  rw [h1]
  intro hc
  exact h (by exact_mod_cast hc)

theorem tmod_bounds (x : Int) (m : Nat) (hm : 0 < m) :
    -(m : Int) < x.tmod m ∧ x.tmod m < m := by
  cases x with
  | ofNat k =>
    have : (Int.ofNat k).tmod (m : Int) = ((k % m : Nat) : Int) := rfl
    rw [this]
    have := Nat.mod_lt k hm
    omega
  | negSucc k =>
    have : (Int.negSucc k).tmod (m : Int) = -(((k + 1) % m : Nat) : Int) := rfl
    rw [this]
    have := Nat.mod_lt (k + 1) hm
    omega

theorem tmod_modEq (z : Int) (m : Int) : z.tmod m ≡ z [ZMOD m] := by
  rw [Int.modEq_iff_dvd]
  have := Int.tmod_add_tdiv z m
  exact ⟨z.tdiv m, by linarith⟩

theorem mod_inverse_some {a m : Nat} (hm : 0 < m) (h : Nat.gcd a m = 1) :
    ∃ d : Int, Util.mod_inverse (a : Int) (m : Int) = some d ∧ 0 ≤ d ∧
      a * d.toNat ≡ 1 [MOD m] := by
  obtain ⟨h1, h2⟩ := extend_gcd_spec a m
  rw [h] at h1 h2
  unfold Util.mod_inverse
  rw [if_neg (by rw [h1]; simp)]
  set x := (Util.extend_gcd (a : Int) (m : Int)).2.1 with hx
  set y := (Util.extend_gcd (a : Int) (m : Int)).2.2 with hy
  refine ⟨_, rfl, ?_, ?_⟩
  · have hin : 0 ≤ x.tmod m + m := by
      have := (tmod_bounds x m hm).1
      omega
    obtain ⟨j, hj⟩ := Int.eq_ofNat_of_zero_le hin
    rw [hj, int_tmod_coe]
    exact Int.natCast_nonneg _
  · have hd1 : (x.tmod m + m).tmod m ≡ x.tmod m + m [ZMOD (m : Int)] := tmod_modEq _ _
    have hd2 : x.tmod m + (m : Int) ≡ x.tmod m + 0 [ZMOD (m : Int)] :=
      Int.ModEq.add_left _ (Int.modEq_zero_iff_dvd.mpr dvd_rfl)
    have hd3 : x.tmod m ≡ x [ZMOD (m : Int)] := tmod_modEq _ _
    have hdx : (x.tmod m + m).tmod m ≡ x [ZMOD (m : Int)] := by
      calc (x.tmod m + m).tmod m ≡ x.tmod m + m [ZMOD (m : Int)] := hd1
        _ ≡ x.tmod m + 0 [ZMOD (m : Int)] := hd2
        _ = x.tmod m := by ring
        _ ≡ x [ZMOD (m : Int)] := hd3
    have hnn : 0 ≤ (x.tmod m + m).tmod m := by
      have hin : 0 ≤ x.tmod m + m := by
        have := (tmod_bounds x m hm).1
        omega
      obtain ⟨j, hj⟩ := Int.eq_ofNat_of_zero_le hin
      rw [hj, int_tmod_coe]
      exact Int.natCast_nonneg _
    have hmul : (a : Int) * ((x.tmod m + m).tmod m) ≡ 1 [ZMOD (m : Int)] := by
      calc (a : Int) * ((x.tmod m + m).tmod m) ≡ (a : Int) * x [ZMOD (m : Int)] :=
            Int.ModEq.mul_left _ hdx
        _ = x * a + 0 := by ring
        _ ≡ x * a + y * m [ZMOD (m : Int)] :=
            Int.ModEq.add_left _ ((Int.modEq_zero_iff_dvd.mpr (dvd_mul_left _ _)).symm)
        _ = 1 := by rw [h2]; norm_num
    rw [Nat.modEq_iff_dvd]
    have hc : ((a * ((x.tmod m + m).tmod m).toNat : Nat) : Int) =
        (a : Int) * ((x.tmod m + m).tmod m) := by
      push_cast
      rw [Int.toNat_of_nonneg hnn]
    have := hmul.dvd
    rw [← hc] at this
    simpa using this

/-- C5 (amended): when the Lagrange fraction is not an exact division and
its gcd-reduced denominator has no inverse mod `q - 1`, the share is only
reported (stderr), NOT skipped: `compute_factor` keeps the initial exponent
1 and returns `share^1 mod q` (inverted mod `q` when the coefficient is
negative), which `reconstruct` multiplies into the product. -/
theorem C5_no_inverse_keeps_exponent_one (q : Nat) (position : Int) (share : Nat) (values : List Int)
    (hq : 1 ≤ q)
    (hmod : (Util.lagrange_coefficient position values).1.tmod
      (Util.lagrange_coefficient position values).2 ≠ 0)
    (hgcd : Nat.gcd ((Util.abs (Util.lagrange_coefficient position values).2).toNat /
        Nat.gcd (Util.lagrange_coefficient position values).1.toNat
          ((Util.abs (Util.lagrange_coefficient position values).2).toNat)) (q - 1) ≠ 1) :
    VSS.compute_factor q position share values =
      if (Util.lagrange_coefficient position values).1 *
          (Util.lagrange_coefficient position values).2 < 0 then
        match Util.mod_inverse ((share % q : Nat) : Int) (q : Int) with
        | some inv => inv.toNat
        | none => share % q
      else share % q := by
  have hq1 : ((q : Int) - 1) = (((q - 1 : Nat) : Nat) : Int) := by
    omega
  have hnone : Util.mod_inverse
      ((((Util.abs (Util.lagrange_coefficient position values).2).toNat /
        Nat.gcd (Util.lagrange_coefficient position values).1.toNat
          ((Util.abs (Util.lagrange_coefficient position values).2).toNat) : Nat) : Int))
      ((q : Int) - 1) = none := by
    rw [hq1]
    exact mod_inverse_none hgcd
  simp only [VSS.compute_factor, if_neg hmod, hnone]
  rw [modpow_eq, Int.toNat_one, pow_one]

/-- Witness for C5: `q = 7`, position 4 in {1,2,4}: the fraction `2/6`
reduces to `1/3`, 3 has no inverse mod 6, and the factor is `5^1 mod 7`. -/
theorem C5_no_inverse_keeps_exponent_one_witness :
    (1 ≤ 7 ∧
      (Util.lagrange_coefficient 4 [1, 2, 4]).1.tmod
        (Util.lagrange_coefficient 4 [1, 2, 4]).2 ≠ 0 ∧
      Nat.gcd ((Util.abs (Util.lagrange_coefficient 4 [1, 2, 4]).2).toNat /
        Nat.gcd (Util.lagrange_coefficient 4 [1, 2, 4]).1.toNat
          ((Util.abs (Util.lagrange_coefficient 4 [1, 2, 4]).2).toNat)) (7 - 1) ≠ 1) ∧
    VSS.compute_factor 7 4 5 [1, 2, 4] =
      if (Util.lagrange_coefficient 4 [1, 2, 4]).1 *
          (Util.lagrange_coefficient 4 [1, 2, 4]).2 < 0 then
        match Util.mod_inverse ((5 % 7 : Nat) : Int) ((7 : Nat) : Int) with
        | some inv => inv.toNat
        | none => 5 % 7
      else 5 % 7 :=
  ⟨⟨by decide, by decide, by decide⟩,
   C5_no_inverse_keeps_exponent_one 7 4 5 [1, 2, 4] (by decide) (by decide) (by decide)⟩


theorem buildShares_none :
    ∀ (l : List ShareBox) (positions : List (Nat × Int)) (acc : List (Int × Nat)),
      (∃ sb ∈ l, List.lookup sb.publickey positions = none) →
      VSS.buildShares l positions acc = none := by
  intro l
  induction l with
  | nil =>
    intro positions acc h
    obtain ⟨sb, hmem, _⟩ := h
    exact absurd hmem (List.not_mem_nil sb)
  | cons sb rest ih =>
    intro positions acc h
    unfold VSS.buildShares
    cases hl : List.lookup sb.publickey positions with
    | none => rfl
    | some pos =>
      obtain ⟨sb', hmem, hsb'⟩ := h
      rcases List.mem_cons.mp hmem with heq | hmem'
      · rw [heq] at hsb'
        rw [hsb'] at hl
        exact Option.noConfusion hl
      · exact ih positions _ ⟨sb', hmem', hsb'⟩

theorem buildShares_some :
    ∀ (l : List ShareBox) (positions : List (Nat × Int)) (acc : List (Int × Nat)),
      (∀ sb ∈ l, (List.lookup sb.publickey positions).isSome) →
      ∃ m, VSS.buildShares l positions acc = some m := by
  intro l
  induction l with
  | nil => intro positions acc _; exact ⟨acc, rfl⟩
  | cons sb rest ih =>
    intro positions acc h
    unfold VSS.buildShares
    cases hl : List.lookup sb.publickey positions with
    | none =>
      have := h sb (List.mem_cons_self sb rest)
      rw [hl] at this
      exact absurd this (by simp)
    | some pos =>
      exact ih positions _ (fun sb' hmem => h sb' (List.mem_cons_of_mem sb hmem))

/-- C8: `reconstruct` returns `None` when fewer share boxes than
commitments are supplied (fewer than `t`), and when some share box's public
key is not a key of `D.positions`. -/
theorem C8_reconstruct_error_paths :
    ∀ (q : Nat) (share_boxes : List ShareBox) (D : DistributionShareBox),
      (share_boxes.length < D.commitments.length →
        VSS.reconstruct q share_boxes D = none) ∧
      ((∃ sb ∈ share_boxes, List.lookup sb.publickey D.positions = none) →
        VSS.reconstruct q share_boxes D = none) := by
  intro q share_boxes D
  constructor
  · intro hlt
    unfold VSS.reconstruct
    rw [if_pos hlt]
  · intro hmiss
    unfold VSS.reconstruct
    by_cases hlt : share_boxes.length < D.commitments.length
    · rw [if_pos hlt]
    · rw [if_neg hlt, buildShares_none share_boxes D.positions [] hmiss]

/-- C10: the minimum-share precondition counts share boxes with
multiplicity: whenever the slice is at least as long as `D.commitments` and
every element's public key occurs in `D.positions`, `reconstruct` returns
`Some` — duplicate public keys (which collapse to one position in the
position-keyed map) still pass the threshold check. -/
theorem C10_reconstruct_counts_multiplicity :
    ∀ (q : Nat) (share_boxes : List ShareBox) (D : DistributionShareBox),
      D.commitments.length ≤ share_boxes.length →
      (∀ sb ∈ share_boxes, (List.lookup sb.publickey D.positions).isSome) →
      (VSS.reconstruct q share_boxes D).isSome := by
  intro q share_boxes D hlen hmem
  unfold VSS.reconstruct
  rw [if_neg (by omega)]
  obtain ⟨m, hm⟩ := buildShares_some share_boxes D.positions [] hmem
  rw [hm]
  rfl

/-- Witness for C8: one share box against two commitments (`t = 2`)
yields an absent result. -/
theorem C8_reconstruct_error_paths_witness :
    (([⟨1, 2, 0, 0⟩] : List ShareBox).length <
      (⟨[5, 5], [], [], [], 0, [], 0⟩ : DistributionShareBox).commitments.length) ∧
    VSS.reconstruct 7 [⟨1, 2, 0, 0⟩] ⟨[5, 5], [], [], [], 0, [], 0⟩ = none :=
  ⟨by decide,
   (C8_reconstruct_error_paths 7 [⟨1, 2, 0, 0⟩] ⟨[5, 5], [], [], [], 0, [], 0⟩).1 (by decide)⟩

/-- Witness for C10: two copies of the same share box pass the `t = 2`
threshold check even though they cover a single position. -/
theorem C10_reconstruct_counts_multiplicity_witness :
    ((⟨[5, 5], [(10, 1)], [], [], 0, [], 0⟩ : DistributionShareBox).commitments.length ≤
      ([⟨10, 3, 0, 0⟩, ⟨10, 3, 0, 0⟩] : List ShareBox).length ∧
      ∀ sb ∈ ([⟨10, 3, 0, 0⟩, ⟨10, 3, 0, 0⟩] : List ShareBox),
        (List.lookup sb.publickey
          (⟨[5, 5], [(10, 1)], [], [], 0, [], 0⟩ : DistributionShareBox).positions).isSome) ∧
    (VSS.reconstruct 7 [⟨10, 3, 0, 0⟩, ⟨10, 3, 0, 0⟩]
      ⟨[5, 5], [(10, 1)], [], [], 0, [], 0⟩).isSome :=
  ⟨⟨by decide, by decide⟩,
   C10_reconstruct_counts_multiplicity 7 [⟨10, 3, 0, 0⟩, ⟨10, 3, 0, 0⟩]
     ⟨[5, 5], [(10, 1)], [], [], 0, [], 0⟩ (by decide) (by decide)⟩


theorem powModEq_le {q b : Nat} (hq : Nat.Prime q) (hb : ¬ q ∣ b) {e1 e2 : Nat}
    (hle : e1 ≤ e2) (h : e1 ≡ e2 [MOD q - 1]) : b ^ e1 ≡ b ^ e2 [MOD q] := by
  obtain ⟨k, hk⟩ := (Nat.modEq_iff_dvd' hle).mp h
  have he : e2 = e1 + (q - 1) * k := by omega
  have hco : Nat.Coprime b q :=
    Nat.Coprime.symm ((Nat.Prime.coprime_iff_not_dvd hq).mpr hb)
  have hfer : b ^ (q - 1) ≡ 1 [MOD q] := by
    have ht := Nat.ModEq.pow_totient hco
    rwa [Nat.totient_prime hq] at ht
  calc b ^ e1 = b ^ e1 * 1 ^ k := by ring
    _ ≡ b ^ e1 * (b ^ (q - 1)) ^ k [MOD q] :=
        Nat.ModEq.mul_left _ (Nat.ModEq.pow k hfer.symm)
    _ = b ^ (e1 + (q - 1) * k) := by rw [pow_add, pow_mul]
    _ = b ^ e2 := by rw [← he]

theorem powModEq {q b : Nat} (hq : Nat.Prime q) (hb : ¬ q ∣ b) {e1 e2 : Nat}
    (h : e1 ≡ e2 [MOD q - 1]) : b ^ e1 ≡ b ^ e2 [MOD q] := by
  rcases le_total e1 e2 with hle | hle
  · exact powModEq_le hq hb hle h
  · exact (powModEq_le hq hb hle h.symm).symm

theorem respN_add (w s c q1 : Nat) (h : 0 < q1) :
    respN w s c q1 + s * c ≡ w [MOD q1] := by
  rw [Nat.modEq_iff_dvd]
  have hz : ((respN w s c q1 : Nat) : Int) =
      ((w : Int) - (s : Int) * (c : Int)).emod (q1 : Int) := by
    unfold respN
    exact Int.toNat_of_nonneg (Int.emod_nonneg _ (by omega))
  push_cast
  rw [hz]
  refine ⟨((w : Int) - (s : Int) * (c : Int)) / (q1 : Int), ?_⟩
  have hdm := Int.ediv_add_emod ((w : Int) - (s : Int) * (c : Int)) (q1 : Int)
  have hee : ((w : Int) - (s : Int) * (c : Int)).emod (q1 : Int) =
      ((w : Int) - (s : Int) * (c : Int)) % (q1 : Int) := rfl
  rw [hee]
  linarith

theorem not_dvd_modpow {q b : Nat} (hq : Nat.Prime q) (hb : ¬ q ∣ b) (e : Nat) :
    ¬ q ∣ modpow b e q := by
  rw [modpow_eq]
  intro hdvd
  have h1 : q ∣ b ^ e := (Nat.dvd_mod_iff dvd_rfl).mp hdvd
  exact hb (Nat.Prime.dvd_of_dvd_pow hq h1)

theorem dleq_move {q b y : Nat} (hq : Nat.Prime q) (hb : ¬ q ∣ b)
    (s c w r : Nat) (hy : y ≡ b ^ s [MOD q]) (hr : r + s * c ≡ w [MOD q - 1]) :
    modpow b r q * modpow y c q % q = modpow b w q := by
  rw [modpow_eq b r, modpow_eq y c, modpow_eq b w]
  have step : b ^ r % q * (y ^ c % q) % q ≡ b ^ w [MOD q] := by
    calc b ^ r % q * (y ^ c % q) % q
        ≡ b ^ r * y ^ c [MOD q] := by
          rw [← Nat.mul_mod]
          exact Nat.mod_modEq _ _
      _ ≡ b ^ r * (b ^ s) ^ c [MOD q] := Nat.ModEq.mul_left _ (Nat.ModEq.pow c hy)
      _ = b ^ (r + s * c) := by rw [pow_add, pow_mul]
      _ ≡ b ^ w [MOD q] := powModEq hq hb hr
  unfold Nat.ModEq at step
  rw [Nat.mod_mod_of_dvd _ (dvd_refl q)] at step
  exact step

theorem verify_unfold (q G : Nat) (sb : ShareBox) (y : Nat) :
    VSS.verify q G sb y =
      (sha256 (decBytes sb.publickey ++ decBytes y ++
        decBytes (modpow G sb.response q * modpow sb.publickey sb.challenge q % q) ++
        decBytes (modpow sb.share sb.response q * modpow y sb.challenge q % q)) % (q - 1)
        == sb.challenge) := rfl

/-- C3: for every distribution box whose share entry for `pk = G^sk mod q`
is the honest encrypted share `pk^s mod q`, with `gcd(sk, q-1) = 1`, and for
every extraction witness `w`, extraction succeeds and the produced share box
passes `verify_share`. -/
theorem C3_verify_share_completeness
    (q G : Nat) (D : DistributionShareBox) (sk s w : Nat)
    (hq : Nat.Prime q) (hG : ¬ q ∣ G)
    (hco : Nat.gcd sk (q - 1) = 1)
    (hY : List.lookup (modpow G sk q) D.shares = some (modpow (modpow G sk q) s q)) :
    ∃ sb, Participant.extract_share q G D sk w = ExtractResult.ok sb ∧
      VSS.verify_share q G sb D (modpow G sk q) = true := by
  have hq2 : 2 ≤ q := hq.two_le
  have hq1pos : 0 < q - 1 := by omega
  obtain ⟨d, hd, hdnn, hdinv⟩ := mod_inverse_some hq1pos hco
  have hcast : ((q : Int) - 1) = ((q - 1 : Nat) : Int) := by omega
  have hpkne : ¬ q ∣ modpow G sk q := not_dvd_modpow hq hG sk
  have hYne : ¬ q ∣ modpow (modpow G sk q) s q := not_dvd_modpow hq hpkne s
  have hSne : ¬ q ∣ modpow (modpow (modpow G sk q) s q) d.toNat q :=
    not_dvd_modpow hq hYne d.toNat
  set pk := modpow G sk q with hpk
  set y := modpow pk s q with hy0
  set S := modpow y d.toNat q with hS0
  set c := sha256 (decBytes pk ++ decBytes y ++
      decBytes (modpow G w q) ++ decBytes (modpow S w q)) % (q - 1) with hc0
  set r := respN w sk c (q - 1) with hr0
  have hext : Participant.extract_share q G D sk w = ExtractResult.ok ⟨pk, S, c, r⟩ := by
    unfold Participant.extract_share
    rw [hcast, ← hpk]
    simp only [hY, hd]
  have hYS : y ≡ S ^ sk [MOD q] := by
    have h1 : S ^ sk ≡ (y ^ d.toNat) ^ sk [MOD q] := by
      rw [hS0, modpow_eq]
      exact Nat.ModEq.pow sk (Nat.mod_modEq _ _)
    have h3 : y ^ (d.toNat * sk) ≡ y ^ 1 [MOD q] := by
      refine powModEq hq hYne ?_
      calc d.toNat * sk = sk * d.toNat := by ring
        _ ≡ 1 [MOD q - 1] := hdinv
    calc y = y ^ 1 := (pow_one y).symm
      _ ≡ y ^ (d.toNat * sk) [MOD q] := h3.symm
      _ = (y ^ d.toNat) ^ sk := by rw [← pow_mul]
      _ ≡ S ^ sk [MOD q] := h1.symm
  have hpkG : pk ≡ G ^ sk [MOD q] := by
    rw [hpk, modpow_eq]
    exact Nat.mod_modEq _ _
  have hr1 : r + sk * c ≡ w [MOD q - 1] := respN_add w sk c (q - 1) hq1pos
  have ha1 : modpow G r q * modpow pk c q % q = modpow G w q :=
    dleq_move hq hG sk c w r hpkG hr1
  have ha2 : modpow S r q * modpow y c q % q = modpow S w q :=
    dleq_move hq hSne sk c w r hYS hr1
  refine ⟨⟨pk, S, c, r⟩, hext, ?_⟩
  unfold VSS.verify_share
  rw [hY]
  show VSS.verify q G ⟨pk, S, c, r⟩ y = true
  rw [verify_unfold]
  dsimp only
  rw [ha1, ha2, ← hc0]
  exact beq_self_eq_true c


/-- Binary-splitting trial division: `true` certifies that no `m` with
`lo ≤ m < lo + len` and `m * m ≤ n` divides `n`.  The split keeps the
recursion depth logarithmic so that kernel evaluation does not overflow. -/
def noDivInAux : Nat → Nat → Nat → Nat → Bool
  | 0, _, _, _ => false
  | f + 1, len, lo, n =>
    if n < lo * lo then true
    else if len = 0 then true
    else if len = 1 then decide (n % lo ≠ 0)
    else noDivInAux f (len / 2) lo n &&
      noDivInAux f (len - len / 2) (lo + len / 2) n

/-- Executable primality test: `2 ≤ n` and no divisor `2 ≤ m ≤ √n`. -/
def primeCheck (n : Nat) : Bool := decide (2 ≤ n) && noDivInAux 64 n 2 n

theorem noDivInAux_spec : ∀ (f len lo n : Nat), noDivInAux f len lo n = true →
    ∀ m, lo ≤ m → m < lo + len → m * m ≤ n → ¬ m ∣ n := by
  intro f
  induction f with
  | zero =>
    intro len lo n h
    simp [noDivInAux] at h
  | succ f ih =>
    intro len lo n h m hlo hm hmm hdvd
    unfold noDivInAux at h
    by_cases h1 : n < lo * lo
    · have : lo * lo ≤ m * m := Nat.mul_le_mul hlo hlo
      omega
    · rw [if_neg h1] at h
      by_cases h2 : len = 0
      · omega
      · rw [if_neg h2] at h
        by_cases h3 : len = 1
        · rw [if_pos h3] at h
          rw [decide_eq_true_eq] at h
          have hme : m = lo := by omega
          subst hme
          exact h (Nat.mod_eq_zero_of_dvd hdvd)
        · rw [if_neg h3, Bool.and_eq_true] at h
          rcases Nat.lt_or_ge m (lo + len / 2) with hsplit | hsplit
          · exact ih (len / 2) lo n h.1 m hlo hsplit hmm hdvd
          · refine ih (len - len / 2) (lo + len / 2) n h.2 m hsplit (by omega) hmm hdvd

theorem primeCheck_prime {n : Nat} (h : primeCheck n = true) : Nat.Prime n := by
  unfold primeCheck at h
  rw [Bool.and_eq_true, decide_eq_true_eq] at h
  obtain ⟨h2, haux⟩ := h
  rw [Nat.prime_def_le_sqrt]
  refine ⟨h2, ?_⟩
  intro m hm2 hms hdvd
  have hmm : m * m ≤ n := Nat.le_sqrt.mp hms
  have hsq : Nat.sqrt n ≤ n := Nat.sqrt_le_self n
  exact absurd hdvd (noDivInAux_spec 64 n 2 n haux m hm2 (by omega) hmm)

/-- The 28-bit test-group modulus 179426549 is prime. -/
theorem testGroupPrime : Nat.Prime 179426549 := primeCheck_prime (by decide)

/-- Witness for C3: recipient 7901 of the S1 distribution with extraction
witness 1337 (the S2 scenario). -/
theorem C3_verify_share_completeness_witness :
    (Nat.Prime 179426549 ∧ ¬ (179426549 ∣ 15486487) ∧
      Nat.gcd 7901 (179426549 - 1) = 1 ∧
      List.lookup (modpow 15486487 7901 179426549) s1Distribution.shares =
        some (modpow (modpow 15486487 7901 179426549) 126265842 179426549)) ∧
    ∃ sb, Participant.extract_share 179426549 15486487 s1Distribution 7901 1337 =
        ExtractResult.ok sb ∧
      VSS.verify_share 179426549 15486487 sb s1Distribution
        (modpow 15486487 7901 179426549) = true :=
  ⟨⟨testGroupPrime, by decide, by decide, by decide⟩,
   C3_verify_share_completeness 179426549 15486487 s1Distribution 7901 126265842 1337
     testGroupPrime (by decide) (by decide) (by decide)⟩


theorem lookup_btreeInsertN_self {β : Type} (k : Nat) (v : β) :
    ∀ m : List (Nat × β), List.lookup k (btreeInsertN k v m) = some v := by
  intro m
  induction m with
  | nil => simp [btreeInsertN, List.lookup]
  | cons p rest ih =>
    obtain ⟨a, b⟩ := p
    unfold btreeInsertN
    by_cases h1 : k < a
    · simp [h1, List.lookup]
    · by_cases h2 : k = a
      · simp [h1, h2, List.lookup]
      · have hb : (k == a) = false := by simp [h2]
        simp [h1, h2, List.lookup, hb, ih]

theorem lookup_btreeInsertN_ne {β : Type} {k k' : Nat} (v : β) (h : k' ≠ k) :
    ∀ m : List (Nat × β), List.lookup k' (btreeInsertN k v m) = List.lookup k' m := by
  intro m
  have hkk : (k' == k) = false := by simp [h]
  induction m with
  | nil => simp [btreeInsertN, List.lookup, hkk]
  | cons p rest ih =>
    obtain ⟨a, b⟩ := p
    unfold btreeInsertN
    by_cases h1 : k < a
    · simp [h1, List.lookup, hkk]
    · by_cases h2 : k = a
      · have hka : (k' == a) = false := by
          subst h2
          exact hkk
        simp [h1, h2, List.lookup, hkk, hka]
      · cases hb : (k' == a) with
        | true => simp [h1, h2, List.lookup, hb]
        | false => simp [h1, h2, List.lookup, hb, ih]

theorem lookup_enumFold_notmem {β : Type} (f : Nat → Nat → β) :
    ∀ (l : List Nat) (n0 : Nat) (init : List (Nat × β)) (pk : Nat), pk ∉ l →
      List.lookup pk ((List.enumFrom n0 l).foldl
        (fun m p => btreeInsertN p.2 (f p.1 p.2) m) init) = List.lookup pk init := by
  intro l
  induction l with
  | nil => intro n0 init pk _; rfl
  | cons x rest ih =>
    intro n0 init pk hpk
    have hne : pk ≠ x := fun he => hpk (he ▸ List.mem_cons_self x rest)
    have hrest : pk ∉ rest := fun hm => hpk (List.mem_cons_of_mem x hm)
    simp only [List.enumFrom, List.foldl_cons]
    rw [ih (n0 + 1) _ pk hrest, lookup_btreeInsertN_ne _ hne]

theorem lookup_enumFold {β : Type} (f : Nat → Nat → β) :
    ∀ (l : List Nat) (n0 : Nat) (init : List (Nat × β)) (idx pk : Nat),
      l.Nodup → l.get? idx = some pk →
      List.lookup pk ((List.enumFrom n0 l).foldl
        (fun m p => btreeInsertN p.2 (f p.1 p.2) m) init) = some (f (n0 + idx) pk) := by
  intro l
  induction l with
  | nil => intro n0 init idx pk _ hget; simp [List.get?] at hget
  | cons x rest ih =>
    intro n0 init idx pk hnd hget
    simp only [List.enumFrom, List.foldl_cons]
    have hx : x ∉ rest := (List.nodup_cons.mp hnd).1
    have hndr : rest.Nodup := (List.nodup_cons.mp hnd).2
    match idx, hget with
    | 0, hget =>
      have hpk : pk = x := by
        simp [List.get?] at hget
        exact hget.symm
      subst hpk
      rw [lookup_enumFold_notmem f rest (n0 + 1) _ pk hx,
        lookup_btreeInsertN_self]
      rw [Nat.add_zero]
    | idx' + 1, hget =>
      have hget' : rest.get? idx' = some pk := hget
      rw [ih (n0 + 1) _ idx' pk hndr hget']
      have harith : n0 + 1 + idx' = n0 + (idx' + 1) := by omega
      rw [harith]

theorem lookup_plainFold_notmem {β : Type} (gf : Nat → β) :
    ∀ (l : List Nat) (init : List (Nat × β)) (pk : Nat), pk ∉ l →
      List.lookup pk (l.foldl (fun m x => btreeInsertN x (gf x) m) init) =
        List.lookup pk init := by
  intro l
  induction l with
  | nil => intro init pk _; rfl
  | cons x rest ih =>
    intro init pk hpk
    have hne : pk ≠ x := fun he => hpk (he ▸ List.mem_cons_self x rest)
    have hrest : pk ∉ rest := fun hm => hpk (List.mem_cons_of_mem x hm)
    simp only [List.foldl_cons]
    rw [ih _ pk hrest, lookup_btreeInsertN_ne _ hne]

theorem lookup_plainFold {β : Type} (gf : Nat → β) :
    ∀ (l : List Nat) (init : List (Nat × β)) (pk : Nat), l.Nodup → pk ∈ l →
      List.lookup pk (l.foldl (fun m x => btreeInsertN x (gf x) m) init) =
        some (gf pk) := by
  intro l
  induction l with
  | nil => intro init pk _ hm; exact absurd hm (List.not_mem_nil pk)
  | cons x rest ih =>
    intro init pk hnd hm
    have hx : x ∉ rest := (List.nodup_cons.mp hnd).1
    have hndr : rest.Nodup := (List.nodup_cons.mp hnd).2
    simp only [List.foldl_cons]
    rcases List.mem_cons.mp hm with he | hm'
    · subst he
      rw [lookup_plainFold_notmem gf rest _ pk hx, lookup_btreeInsertN_self]
    · exact ih _ pk hndr hm'

theorem lookup_positionsMap (pks : List Nat) (idx pk : Nat)
    (hnd : pks.Nodup) (h : pks.get? idx = some pk) :
    List.lookup pk (Participant.positionsMap pks) = some ((idx : Int) + 1) := by
  unfold Participant.positionsMap
  have hres := lookup_enumFold (fun i _ => (i : Int) + 1) pks 0 [] idx pk hnd h
  rw [Nat.zero_add] at hres
  exact hres

theorem lookup_samplingMap (q : Nat) (coefficients pks : List Nat) (idx pk : Nat)
    (hnd : pks.Nodup) (h : pks.get? idx = some pk) :
    List.lookup pk (Participant.samplingMap q coefficients pks) =
      some (sVal coefficients q (idx + 1)) := by
  unfold Participant.samplingMap
  have hres := lookup_enumFold (fun i _ => sVal coefficients q (i + 1)) pks 0 [] idx pk hnd h
  rw [Nat.zero_add] at hres
  exact hres

theorem lookup_sharesMap (q : Nat) (coefficients pks : List Nat) (idx pk : Nat)
    (hnd : pks.Nodup) (h : pks.get? idx = some pk) :
    List.lookup pk (Participant.sharesMap q coefficients pks) =
      some (modpow pk (sVal coefficients q (idx + 1)) q) := by
  unfold Participant.sharesMap
  have hres := lookup_enumFold (fun i x => modpow x (sVal coefficients q (i + 1)) q)
    pks 0 [] idx pk hnd h
  rw [Nat.zero_add] at hres
  exact hres

theorem lookup_responsesMap (q w c : Nat) (coefficients pks : List Nat) (idx pk : Nat)
    (hnd : pks.Nodup) (h : pks.get? idx = some pk) :
    List.lookup pk (Participant.responsesMap q w c coefficients pks) =
      some (respN w (sVal coefficients q (idx + 1)) c (q - 1)) := by
  unfold Participant.responsesMap
  have hmem : pk ∈ pks := List.get?_mem h
  have hres := lookup_plainFold
    (fun x => respN w
      ((List.lookup x (Participant.samplingMap q coefficients pks)).getD 0) c (q - 1))
    pks [] pk hnd hmem
  rw [hres]
  simp only [lookup_samplingMap q coefficients pks idx pk hnd h, Option.getD_some]

theorem commitList_eq (q g : Nat) (coefficients : List Nat) :
    Participant.commitList q g coefficients coefficients.length =
      coefficients.map fun a => modpow g a q := by
  unfold Participant.commitList
  induction coefficients with
  | nil => rfl
  | cons a rest ih =>
    rw [List.length_cons, List.range_succ_eq_map, List.map_cons, List.map_map,
      List.map_cons]
    congr 1

theorem xLoop_aux {q g : Nat} (hq : Nat.Prime q) (hg : ¬ q ∣ g) (pos : Nat) :
    ∀ (as : List Nat) (k A : Nat) (x0 : Nat) (e0 : Int),
      0 ≤ e0 → e0.toNat ≡ pos ^ k [MOD q - 1] → x0 ≡ g ^ A [MOD q] →
      ((as.map fun a => modpow g a q).foldl
        (fun p c => (p.1 * modpow c p.2.toNat q % q, (p.2 * (pos : Int)).tmod ((q : Int) - 1)))
        (x0, e0)).1 ≡
        g ^ (A + ((List.enumFrom k as).map fun p => p.2 * pos ^ p.1).sum) [MOD q] := by
  intro as
  induction as with
  | nil =>
    intro k A x0 e0 _ _ hx0
    simpa using hx0
  | cons a rest ih =>
    intro k A x0 e0 h0 he0m hx0
    have hq2 : 2 ≤ q := hq.two_le
    have hq1 : ((q : Int) - 1) = ((q - 1 : Nat) : Int) := by omega
    have he0' : e0 = ((e0.toNat : Nat) : Int) := (Int.toNat_of_nonneg h0).symm
    have hcast : e0 * (pos : Int) = ((e0.toNat * pos : Nat) : Int) := by
      push_cast
      rw [Int.toNat_of_nonneg h0]
    have he1nn : 0 ≤ (e0 * (pos : Int)).tmod ((q : Int) - 1) := by
      rw [hcast, hq1, int_tmod_coe]
      exact Int.natCast_nonneg _
    have he1v : ((e0 * (pos : Int)).tmod ((q : Int) - 1)).toNat =
        e0.toNat * pos % (q - 1) := by
      rw [hcast, hq1, int_tmod_coe]
      exact Int.toNat_natCast _
    have he1m : ((e0 * (pos : Int)).tmod ((q : Int) - 1)).toNat ≡
        pos ^ (k + 1) [MOD q - 1] := by
      rw [he1v]
      calc e0.toNat * pos % (q - 1)
          ≡ e0.toNat * pos [MOD q - 1] := Nat.mod_modEq _ _
        _ ≡ pos ^ k * pos [MOD q - 1] := Nat.ModEq.mul_right pos he0m
        _ = pos ^ (k + 1) := (pow_succ pos k).symm
    have hmp : modpow (modpow g a q) e0.toNat q = g ^ (a * e0.toNat) % q := by
      rw [modpow_eq, modpow_eq, ← Nat.pow_mod, ← pow_mul]
    have hterm : modpow (modpow g a q) e0.toNat q ≡ g ^ (a * pos ^ k) [MOD q] := by
      rw [hmp]
      calc g ^ (a * e0.toNat) % q ≡ g ^ (a * e0.toNat) [MOD q] := Nat.mod_modEq _ _
        _ ≡ g ^ (a * pos ^ k) [MOD q] := powModEq hq hg (Nat.ModEq.mul_left a he0m)
    have hx1 : x0 * modpow (modpow g a q) e0.toNat q % q ≡
        g ^ (A + a * pos ^ k) [MOD q] := by
      calc x0 * modpow (modpow g a q) e0.toNat q % q
          ≡ x0 * modpow (modpow g a q) e0.toNat q [MOD q] := Nat.mod_modEq _ _
        _ ≡ g ^ A * g ^ (a * pos ^ k) [MOD q] := Nat.ModEq.mul hx0 hterm
        _ = g ^ (A + a * pos ^ k) := (pow_add g A (a * pos ^ k)).symm
    have hres := ih (k + 1) (A + a * pos ^ k) _ _ he1nn he1m hx1
    simp only [List.map_cons, List.foldl_cons]
    refine hres.trans ?_
    have hsum : (List.enumFrom k (a :: rest)).map (fun p => p.2 * pos ^ p.1) =
        (a * pos ^ k) :: ((List.enumFrom (k + 1) rest).map fun p => p.2 * pos ^ p.1) := by
      rfl
    rw [hsum, List.sum_cons, Nat.add_assoc]

theorem xLoop_commit {q g : Nat} (hq : Nat.Prime q) (hg : ¬ q ∣ g)
    (coefficients : List Nat) (pos : Nat) :
    xLoop (coefficients.map fun a => modpow g a q) ((pos : Nat) : Int) q ≡
      g ^ Polynomial.get_value coefficients pos [MOD q] := by
  unfold xLoop Polynomial.get_value
  have hres := xLoop_aux hq hg pos coefficients 0 0 1 1 (by norm_num)
    (by simp [Nat.ModEq]) (by simp [Nat.ModEq])
  simpa using hres

theorem quadD_unfold (q g : Nat) (cs coefficients : List Nat) (w pk pos : Nat) :
    quadD q g cs coefficients w pk pos =
      decBytes (xLoop cs (pos : Int) q) ++
      decBytes (modpow pk (sVal coefficients q pos) q) ++
      decBytes (modpow g w q) ++ decBytes (modpow pk w q) := rfl

theorem verifyDistAux_cons (q g : Nat) (D : DistributionShareBox)
    (pk : Nat) (rest : List Nat) (acc : List Nat) (pos : Int) (r y : Nat)
    (h1 : List.lookup pk D.positions = some pos)
    (h2 : List.lookup pk D.responses = some r)
    (h3 : List.lookup pk D.shares = some y) :
    VSS.verifyDistAux q g D (pk :: rest) acc =
      VSS.verifyDistAux q g D rest
        (acc ++ decBytes (xLoop D.commitments pos q) ++ decBytes y ++
          decBytes (modpow g r q * modpow (xLoop D.commitments pos q) D.challenge q % q) ++
          decBytes (modpow pk r q * modpow y D.challenge q % q)) := by
  conv_lhs => unfold VSS.verifyDistAux
  rw [h1, h2, h3]

theorem verifyAux_spec {q g : Nat} (hq : Nat.Prime q) (hg : ¬ q ∣ g)
    (coefficients pks : List Nat) (w : Nat)
    (hnd : pks.Nodup) (hpks : ∀ pk ∈ pks, ¬ q ∣ pk)
    (D : DistributionShareBox)
    (hDc : D.commitments = coefficients.map fun a => modpow g a q)
    (hDpos : D.positions = Participant.positionsMap pks)
    (hDsh : D.shares = Participant.sharesMap q coefficients pks)
    (hDre : D.responses = Participant.responsesMap q w D.challenge coefficients pks) :
    ∀ (suffix : List Nat) (n : Nat) (acc : List Nat),
      (∀ j pk, suffix.get? j = some pk → pks.get? (n + j) = some pk) →
      VSS.verifyDistAux q g D suffix acc =
        some (acc ++ ((List.enumFrom n suffix).map fun p =>
          quadD q g D.commitments coefficients w p.2 (p.1 + 1)).flatten) := by
  intro suffix
  induction suffix with
  | nil =>
    intro n acc _
    simp [VSS.verifyDistAux]
  | cons pk0 rest ih =>
    intro n acc hsub
    have hq2 : 2 ≤ q := hq.two_le
    have hq1pos : 0 < q - 1 := by omega
    have hpk0 : pks.get? n = some pk0 := by
      have h := hsub 0 pk0 rfl
      rwa [Nat.add_zero] at h
    have hmem : pk0 ∈ pks := List.get?_mem hpk0
    have h1 : List.lookup pk0 D.positions = some ((n : Int) + 1) := by
      rw [hDpos]
      exact lookup_positionsMap pks n pk0 hnd hpk0
    have h3 : List.lookup pk0 D.shares =
        some (modpow pk0 (sVal coefficients q (n + 1)) q) := by
      rw [hDsh]
      exact lookup_sharesMap q coefficients pks n pk0 hnd hpk0
    have h2 : List.lookup pk0 D.responses =
        some (respN w (sVal coefficients q (n + 1)) D.challenge (q - 1)) := by
      rw [hDre]
      exact lookup_responsesMap q w D.challenge coefficients pks n pk0 hnd hpk0
    rw [verifyDistAux_cons q g D pk0 rest acc _ _ _ h1 h2 h3]
    have hcast : ((n + 1 : Nat) : Int) = (n : Int) + 1 := by push_cast; ring
    have hxc : xLoop D.commitments ((n : Int) + 1) q ≡
        g ^ Polynomial.get_value coefficients (n + 1) [MOD q] := by
      rw [hDc, ← hcast]
      exact xLoop_commit hq hg coefficients (n + 1)
    have hrP : respN w (sVal coefficients q (n + 1)) D.challenge (q - 1) +
        Polynomial.get_value coefficients (n + 1) * D.challenge ≡ w [MOD q - 1] := by
      have hadd := respN_add w (sVal coefficients q (n + 1)) D.challenge (q - 1) hq1pos
      have hpc : Polynomial.get_value coefficients (n + 1) * D.challenge ≡
          sVal coefficients q (n + 1) * D.challenge [MOD q - 1] :=
        Nat.ModEq.mul_right _ (Nat.mod_modEq _ _).symm
      exact (Nat.ModEq.add_left _ hpc).trans hadd
    have ha1 : modpow g (respN w (sVal coefficients q (n + 1)) D.challenge (q - 1)) q *
        modpow (xLoop D.commitments ((n : Int) + 1) q) D.challenge q % q =
        modpow g w q :=
      dleq_move hq hg (Polynomial.get_value coefficients (n + 1)) D.challenge w _ hxc hrP
    have hy2 : modpow pk0 (sVal coefficients q (n + 1)) q ≡
        pk0 ^ sVal coefficients q (n + 1) [MOD q] := by
      rw [modpow_eq]
      exact Nat.mod_modEq _ _
    have ha2 : modpow pk0 (respN w (sVal coefficients q (n + 1)) D.challenge (q - 1)) q *
        modpow (modpow pk0 (sVal coefficients q (n + 1)) q) D.challenge q % q =
        modpow pk0 w q :=
      dleq_move hq (hpks pk0 hmem) (sVal coefficients q (n + 1)) D.challenge w _ hy2
        (respN_add w (sVal coefficients q (n + 1)) D.challenge (q - 1) hq1pos)
    rw [ha1, ha2]
    have hsub' : ∀ j pk, rest.get? j = some pk → pks.get? ((n + 1) + j) = some pk := by
      intro j pk hj
      have h := hsub (j + 1) pk hj
      rwa [show n + (j + 1) = (n + 1) + j by omega] at h
    rw [ih (n + 1) _ hsub']
    congr 1
    have henum : (List.enumFrom n (pk0 :: rest)).map
        (fun p => quadD q g D.commitments coefficients w p.2 (p.1 + 1)) =
        quadD q g D.commitments coefficients w pk0 (n + 1) ::
          ((List.enumFrom (n + 1) rest).map
            fun p => quadD q g D.commitments coefficients w p.2 (p.1 + 1)) := rfl
    rw [henum, List.flatten_cons, quadD_unfold, hcast]
    simp [List.append_assoc]

/-- C2: for every secret, list of distinct recipient public keys (nonzero
mod q), threshold `1 ≤ t ≤ N`, polynomial with exactly `t` coefficients,
and witness `w`, the distribution produced by the dealer passes
`verify_distribution_shares`. -/
theorem C2_verify_distribution_completeness (q g G secret : Nat) (publickeys : List Nat) (threshold : Nat)
    (coefficients : List Nat) (w : Nat)
    (hq : Nat.Prime q) (hg : ¬ q ∣ g)
    (hnd : publickeys.Nodup) (hpks : ∀ pk ∈ publickeys, ¬ q ∣ pk)
    (hlen : coefficients.length = threshold)
    (ht1 : 1 ≤ threshold) (htN : threshold ≤ publickeys.length) :
    VSS.verify_distribution_shares q g
      (Participant.distribute q g G secret publickeys threshold coefficients w) = true := by
  subst hlen
  have hDc : (Participant.distribute q g G secret publickeys coefficients.length
      coefficients w).commitments = coefficients.map fun a => modpow g a q :=
    commitList_eq q g coefficients
  have hmain := verifyAux_spec hq hg coefficients publickeys w hnd hpks
    (Participant.distribute q g G secret publickeys coefficients.length coefficients w)
    hDc rfl rfl rfl publickeys 0 []
    (by intro j pk hj; rwa [Nat.zero_add])
  unfold VSS.verify_distribution_shares
  have hpub : (Participant.distribute q g G secret publickeys coefficients.length
      coefficients w).publickeys = publickeys := rfl
  rw [hpub, hmain]
  exact beq_self_eq_true _

/-- Witness for C2: the S1 distribution verifies. -/
theorem C2_verify_distribution_completeness_witness :
    (Nat.Prime 179426549 ∧ ¬ (179426549 ∣ 1301081) ∧ s1Publickeys.Nodup ∧
      (∀ pk ∈ s1Publickeys, ¬ (179426549 ∣ pk)) ∧
      ([164102006, 43489589, 98100795] : List Nat).length = 3 ∧
      1 ≤ 3 ∧ 3 ≤ s1Publickeys.length) ∧
    VSS.verify_distribution_shares 179426549 1301081 s1Distribution = true :=
  ⟨⟨testGroupPrime, by decide, by decide, by decide, by decide, by decide, by decide⟩,
   C2_verify_distribution_completeness 179426549 1301081 15486487 1234567890
     s1Publickeys 3 [164102006, 43489589, 98100795] 6345
     testGroupPrime (by decide) (by decide) (by decide) (by decide) (by decide) (by decide)⟩
